import Mathlib

/-!
Verification of the name-segmentation / alias-derivation core of the
`personal-name-dictionary` repository (`src/build.mjs`).

Strings are modelled as lists of Unicode code points (`List Nat`), matching
the JavaScript spread `[...s]`, which splits a string into whole code points.
Where the JavaScript code measures `String.prototype.length` (UTF-16 code
units) we use `utf16Len` below.
-/

/-- The set of characters removed by JavaScript `String.prototype.trim`
and matched by the regexp class `\s`: ECMAScript WhiteSpace and
LineTerminator code points. -/
def isJsWs (c : Nat) : Bool :=
  c = 0x9 ∨ c = 0xA ∨ c = 0xB ∨ c = 0xC ∨ c = 0xD ∨ c = 0x20 ∨ c = 0xA0 ∨
  c = 0x1680 ∨ (0x2000 ≤ c ∧ c ≤ 0x200A) ∨ c = 0x2028 ∨ c = 0x2029 ∨
  c = 0x202F ∨ c = 0x205F ∨ c = 0x3000 ∨ c = 0xFEFF

/-- JavaScript `String.prototype.trim`: drop leading and trailing
whitespace. -/
def jsTrim (l : List Nat) : List Nat :=
  ((l.dropWhile isJsWs).reverse.dropWhile isJsWs).reverse

/-- Character class of the regexp in `isAllCjk` (src/build.mjs line 42):
`[㐀-䶿一-鿿々]`. -/
def isCjkChar (c : Nat) : Bool :=
  (0x3400 ≤ c ∧ c ≤ 0x4DBF) ∨ (0x4E00 ≤ c ∧ c ≤ 0x9FFF) ∨ c = 0x3005

/-- `isAllCjk` (src/build.mjs lines 41-43): test
`/^[㐀-䶿一-鿿々]+$/` against the trimmed string.
The regexp accepts exactly the non-empty strings all of whose characters lie
in the class (each class character is a single UTF-16 unit, so unit-wise and
code-point-wise readings agree). -/
def isAllCjk (s : List Nat) : Bool :=
  let t := jsTrim s
  ¬ t = [] ∧ t.all isCjkChar

/-- Code points of a Lean string literal; used to write the concrete
strings appearing in the JavaScript source. -/
def str (s : String) : List Nat := s.data.map Char.toNat

/-- JavaScript `String.prototype.length` of a string given by its code
points: code points above `U+FFFF` occupy two UTF-16 units. -/
def utf16Len (l : List Nat) : Nat :=
  (l.map fun c => if c < 0x10000 then 1 else 2).sum

-- ### Segmentation engine (src/build.mjs lines 159-185)

/-- The two lexicon sets built by `loadJmnedictSets`; JavaScript `Set`
objects are modelled as duplicate-free insertion-ordered lists. -/
structure Lexicon where
  surnames : List (List Nat)
  givennames : List (List Nat)
deriving DecidableEq

/-- The running `best` record of `bestSplitWithJmnedict`. -/
structure Cand where
  surname : List Nat
  given : List Nat
  score : Nat
deriving DecidableEq

/-- The score assigned to a cut (src/build.mjs lines 177-180):
base 100, +15 when `cut === 2`, +8 when `cut === 3`, plus
`Math.min(5, sur.length) + Math.min(5, giv.length)` where `.length`
counts UTF-16 units. -/
def scoreOf (sur giv : List Nat) (cut : Nat) : Nat :=
  100 + (if cut = 2 then 15 else 0) + (if cut = 3 then 8 else 0) +
    min 5 (utf16Len sur) + min 5 (utf16Len giv)

/-- One iteration of the scan loop of `bestSplitWithJmnedict`
(src/build.mjs lines 169-183): skip the cut unless both halves are in
the lexicon, otherwise replace `best` exactly when the new score is
strictly greater. -/
def stepCut (jm : Lexicon) (s : List Nat) (best : Option Cand) (cut : Nat) :
    Option Cand :=
  let sur := s.take cut
  let giv := s.drop cut
  if sur ∈ jm.surnames ∧ giv ∈ jm.givennames then
    let sc := scoreOf sur giv cut
    match best with
    | none => some ⟨sur, giv, sc⟩
    | some b => if b.score < sc then some ⟨sur, giv, sc⟩ else some b
  else best

/-- `bestSplitWithJmnedict` (src/build.mjs lines 159-185): trim the
input, reject non-CJK strings and lengths outside `[2, 8]`, then scan
cuts `1 .. n-1` left to right keeping the best-scoring lexicon-validated
split. -/
def bestSplitWithJmnedict (nativeKanji : List Nat) (jm : Lexicon) :
    Option (List Nat × List Nat) :=
  let s := jsTrim nativeKanji
  if s = [] ∨ isAllCjk s = false then none
  else
    let n := s.length
    if n < 2 ∨ 8 < n then none
    else
      match (List.range' 1 (n - 1)).foldl (stepCut jm s) none with
      | some b => some (b.surname, b.given)
      | none => none

/-- A cut position the scan keeps: a genuine internal position whose two
halves are members of the corresponding lexicon sets. -/
def keepable (s : List Nat) (jm : Lexicon) (c : Nat) : Prop :=
  1 ≤ c ∧ c ≤ s.length - 1 ∧ s.take c ∈ jm.surnames ∧ s.drop c ∈ jm.givennames

instance (s : List Nat) (jm : Lexicon) (c : Nat) : Decidable (keepable s jm c) := by
  unfold keepable
  infer_instance

/-- The score the scan assigns to cut `c` of `s`. -/
def scoreAt (s : List Nat) (c : Nat) : Nat :=
  scoreOf (s.take c) (s.drop c) c
-- ### Alias derivation (src/build.mjs lines 45-50 and 189-234)

/-- Separator class of `splitParts` (src/build.mjs line 47):
`[\s・=＝·•・]+` (the katakana middle dot appears twice in the
source class). -/
def isSepChar (c : Nat) : Bool :=
  isJsWs c ∨ c = 0x30FB ∨ c = 0x3D ∨ c = 0xFF1D ∨ c = 0xB7 ∨ c = 0x2022

/-- Tokens produced by `String.prototype.split` on a one-or-more
character-class regexp: maximal runs of non-separator characters, with
an empty token wherever two separators are adjacent or the string starts
or ends with one (those empties are discarded by `splitParts` below). -/
def splitChunks (p : Nat → Bool) (l : List Nat) : List (List Nat) :=
  l.foldr
    (fun c acc =>
      if p c then [] :: acc
      else
        match acc with
        | [] => [[c]]
        | r :: rs => (c :: r) :: rs)
    []

/-- `splitParts` (src/build.mjs lines 45-50): split on the separator
class, trim each token, drop falsy (empty) tokens. -/
def splitParts (s : List Nat) : List (List Nat) :=
  ((splitChunks isSepChar s).map jsTrim).filter fun x => ¬ x = []

/-- The `add` closure of `makeAliases` (src/build.mjs lines 191-195):
skip falsy values, trim, skip the empty trim, insert into the `Set`
(insertion-ordered, duplicate-free). -/
def addAlias (l : List (List Nat)) (s : List Nat) : List (List Nat) :=
  let t := jsTrim s
  if t = [] then l else if t ∈ l then l else l ++ [t]

/-- ASCII-range case mapping; `String.prototype.toLowerCase` restricted
to the ASCII letters, which is all the alias code applies it to in the
claims below (`makeAliases` itself is parametric in the case mapping). -/
def asciiLower (c : Nat) : Nat := if 65 ≤ c ∧ c ≤ 90 then c + 32 else c

/-- ASCII-wise `toLowerCase` on a whole string. -/
def asciiLowerStr (l : List Nat) : List Nat := l.map asciiLower

/-- Lines 200-209 of src/build.mjs: the two originals, the two
whitespace/middle-dot removals of `native`, and the lower-cased `full`
(`native` and `full` are the trimmed inputs). -/
def aliasStage1 (native full : List Nat) (lower : List Nat → List Nat) :
    List (List Nat) :=
  let a1 := addAlias [] native
  let a2 := addAlias a1 full
  let a3 :=
    if ¬ native = [] then
      addAlias (addAlias a2 (native.filter fun c => ¬ isJsWs c))
        (native.filter fun c => ¬ (isJsWs c ∨ c = 0x30FB))
    else a2
  if ¬ full = [] then addAlias a3 (lower full) else a3

/-- Lines 211-222 of src/build.mjs: add every separator-split part of
`native` when there are at least two; otherwise, when a lexicon is
present and `native` is all-CJK, add the two halves of a successful
JMnedict split. -/
def aliasStage2 (native : List Nat) (jm : Option Lexicon)
    (l : List (List Nat)) : List (List Nat) :=
  let nativeParts := splitParts native
  if 2 ≤ nativeParts.length then nativeParts.foldl addAlias l
  else
    match jm with
    | some lex =>
      if ¬ native = [] ∧ isAllCjk native = true then
        match bestSplitWithJmnedict native lex with
        | some (sur, giv) => addAlias (addAlias l sur) giv
        | none => l
      else l
    | none => l

/-- Lines 224-231 of src/build.mjs: add every separator-split part of
`full`, as-is and lower-cased, when there are at least two. -/
def aliasStage3 (full : List Nat) (lower : List Nat → List Nat)
    (l : List (List Nat)) : List (List Nat) :=
  let fullParts := splitParts full
  if 2 ≤ fullParts.length then
    fullParts.foldl (fun acc p => addAlias (addAlias acc p) (lower p)) l
  else l

/-- `makeAliases` (src/build.mjs lines 189-234).  `lower` abstracts
`String.prototype.toLowerCase` (a pure per-string transform); `jm` is
`null` or the JMnedict lexicon. -/
def makeAliases (nameNative nameFull : List Nat) (jm : Option Lexicon)
    (lower : List Nat → List Nat) : List (List Nat) :=
  let native := jsTrim nameNative
  let full := jsTrim nameFull
  aliasStage3 full lower (aliasStage2 native jm (aliasStage1 native full lower))

/-- The invariant every alias accumulator maintains: entries are
non-empty, already trimmed, and pairwise distinct. -/
def AliasInv (l : List (List Nat)) : Prop :=
  (∀ x ∈ l, ¬ x = [] ∧ jsTrim x = x) ∧ l.Nodup

-- ### Lexicon build (src/build.mjs lines 108-156)

/-- JavaScript `Set.prototype.add` on an insertion-ordered
duplicate-free list. -/
def insertSet (l : List (List Nat)) (x : List Nat) : List (List Nat) :=
  if x ∈ l then l else l ++ [x]

/-- One `kanji[]` element of a JMnedict word: its written form
(`k.text`, coerced to a string). -/
structure JmKanji where
  text : List Nat
deriving DecidableEq

/-- One `translation[]` element: its `type[]` tag strings. -/
structure JmTranslation where
  type : List (List Nat)
deriving DecidableEq

/-- One JMnedict word record (`kanji[]` plus `translation[]`). -/
structure JmWord where
  kanji : List JmKanji
  translation : List JmTranslation
deriving DecidableEq

/-- `isSurnameType` (src/build.mjs line 127). -/
def isSurnameType (t : List Nat) : Bool := t = str "surname" ∨ t = str "family"

/-- `isGivenType` (src/build.mjs line 128). -/
def isGivenType (t : List Nat) : Bool :=
  t = str "given" ∨ t = str "person" ∨ t = str "fem" ∨ t = str "masc"

/-- The `types` set collected from `translation[].type[]`
(src/build.mjs lines 135-139); in this typed model every tag is a
string, so the `typeof x === "string"` filter is vacuous. -/
def wordTypes (w : JmWord) : List (List Nat) :=
  w.translation.foldl (fun acc tr => tr.type.foldl insertSet acc) []

/-- The per-word body of the `loadJmnedictSets` loop
(src/build.mjs lines 130-152): classify the record by its tags, then add
every trimmed, non-empty, all-CJK written form to the matching sets. -/
def addWordForms (acc : List (List Nat) × List (List Nat)) (w : JmWord) :
    List (List Nat) × List (List Nat) :=
  let surname := (wordTypes w).any isSurnameType
  let given := (wordTypes w).any isGivenType
  if surname = false ∧ given = false then acc
  else
    w.kanji.foldl
      (fun ac k =>
        let txt := jsTrim k.text
        if txt = [] ∨ isAllCjk txt = false then ac
        else
          ((if surname then insertSet ac.1 txt else ac.1),
           (if given then insertSet ac.2 txt else ac.2)))
      acc

/-- The surname/given-name sets accumulated over all words
(src/build.mjs lines 122-152). -/
def buildNameSets (words : List JmWord) : List (List Nat) × List (List Nat) :=
  words.foldl addWordForms ([], [])

/-- The decoded JMnedict root object; `words` is `none` when the root
has no `words` array (`Array.isArray` fails, src/build.mjs line 119). -/
structure JmRoot where
  words : Option (List JmWord)
deriving DecidableEq

/-- The two fatal outcomes of the index build (src/build.mjs lines
111-120): `JSON.parse` failure, or an absent/empty `words[]`. -/
inductive JmLoadError where
  | parseFailed
  | noWords
deriving DecidableEq

/-- The parse-and-validate tail of `loadJmnedictSets` (src/build.mjs
lines 111-156), starting from the downloaded buffer: `parsed` is `none`
when `JSON.parse` throws, otherwise the decoded root.  Errors are
`throw`s, modelled as `Except.error`. -/
def loadJmnedictSets (parsed : Option JmRoot) :
    Except JmLoadError (List (List Nat) × List (List Nat)) :=
  match parsed with
  | none => Except.error JmLoadError.parseFailed
  | some root =>
    let words := root.words.getD []
    if words = [] then Except.error JmLoadError.noWords
    else Except.ok (buildNameSets words)

/-- The record list a decode outcome yields (empty when unparseable or
when `words` is not an array). -/
def parsedWords : Option JmRoot → List JmWord
  | none => []
  | some root => root.words.getD []

-- ### Text normalizer (src/build.mjs lines 19-39)

/-- ASCII-case-insensitive character comparison, the canonicalisation
JavaScript regexp `i`-flag matching performs on the ASCII patterns used
here. -/
def ciEq (a b : Nat) : Bool := asciiLower a = asciiLower b

/-- Case-insensitive "the pattern starts the string" test. -/
def ciStarts : List Nat → List Nat → Bool
  | [], _ => true
  | _ :: _, [] => false
  | p :: ps, c :: cs => ciEq p c && ciStarts ps cs

/-- Case-insensitive substring test. -/
def containsCI (pat : List Nat) : List Nat → Bool
  | [] => pat.isEmpty
  | c :: cs => ciStarts pat (c :: cs) || containsCI pat cs

/-- Index just past the first case-insensitive occurrence of `pat`. -/
def findCIEnd (pat : List Nat) : List Nat → Option Nat
  | [] => if pat.isEmpty then some 0 else none
  | c :: cs =>
    if ciStarts pat (c :: cs) then some pat.length
    else (findCIEnd pat cs).map (· + 1)

/-- ECMAScript word character (`\w`), as used by the `\b` assertions in
`/\bspoiler\b/gi`. -/
def isWordChar (c : Nat) : Bool :=
  (48 ≤ c ∧ c ≤ 57) ∨ (65 ≤ c ∧ c ≤ 90) ∨ (97 ≤ c ∧ c ≤ 122) ∨ c = 95

/-- Global-regexp replacement: scan positions left to right; at a match
of positive length emit `rep` and resume after the match, otherwise copy
one character.  `fuel ≥ length` makes the recursion structural; every
step consumes at least one character. -/
def scanRep (m : List Nat → Option Nat) (rep : List Nat) :
    Nat → List Nat → List Nat
  | 0, s => s
  | _ + 1, [] => []
  | fuel + 1, c :: cs =>
    match m (c :: cs) with
    | some (k + 1) => rep ++ scanRep m rep fuel ((c :: cs).drop (k + 1))
    | _ => c :: scanRep m rep fuel cs

/-- Run a global replacement over a whole string. -/
def runRep (m : List Nat → Option Nat) (rep : List Nat) (s : List Nat) :
    List Nat :=
  scanRep m rep s.length s

/-- Matcher for a literal (case-sensitive) pattern, as in the entity
replacements of `htmlToText`. -/
def matchLit (pat : List Nat) (s : List Nat) : Option Nat :=
  if pat.isPrefixOf s then some pat.length else none

/-- Matcher for `/<[^>]+>/`: a `<`, at least one non-`>` character, then
the first following `>`. -/
def matchTag : List Nat → Option Nat
  | [] => none
  | c :: rest =>
    if c = 60 then
      let run := rest.takeWhile fun x => ¬ x = 62
      if ¬ run = [] ∧ ¬ rest.drop run.length = [] then some (run.length + 2)
      else none
    else none

/-- Matcher for `/<br\s*\/?>/i`. -/
def matchBr : List Nat → Option Nat
  | c1 :: c2 :: c3 :: rest =>
    if c1 = 60 ∧ ciEq c2 98 = true ∧ ciEq c3 114 = true then
      let ws := rest.takeWhile isJsWs
      match rest.drop ws.length with
      | 47 :: 62 :: _ => some (ws.length + 5)
      | 62 :: _ => some (ws.length + 4)
      | _ => none
    else none
  | _ => none

/-- Matcher for `/<\/p>/i`. -/
def matchPEnd : List Nat → Option Nat
  | c1 :: c2 :: c3 :: c4 :: _ =>
    if c1 = 60 ∧ c2 = 47 ∧ ciEq c3 112 = true ∧ c4 = 62 then some 4 else none
  | _ => none

/-- Matcher for `/<span[^>]*class="spoiler"[^>]*>[\s\S]*?<\/span>/i`:
`<span`, then the (necessarily `>`-free) attribute region must contain
`class="spoiler"`, then the first `>`, then the shortest tail ending in
`</span>`. -/
def matchSpoilerSpan (s : List Nat) : Option Nat :=
  if ciStarts (str "<span") s then
    let rest := s.drop 5
    let run := rest.takeWhile fun c => ¬ c = 62
    if containsCI (str "class=\x22spoiler\x22") run ∧
        ¬ rest.drop run.length = [] then
      match findCIEnd (str "</span>") (rest.drop (run.length + 1)) with
      | some j => some (5 + run.length + 1 + j)
      | none => none
    else none
  else none

/-- Replacement pass for `/\bspoiler\b/gi`: delete every standalone
occurrence of the word.  `prevW` records whether the character before
the current position (in the original string) is a word character; after
a match it is the trailing `r`, a word character. -/
def scanSpoilerWord : Nat → Bool → List Nat → List Nat
  | 0, _, s => s
  | _ + 1, _, [] => []
  | fuel + 1, prevW, c :: cs =>
    if ¬ prevW ∧ ciStarts (str "spoiler") (c :: cs) ∧
        ¬ isWordChar (((c :: cs).drop 7).headD 0) then
      scanSpoilerWord fuel true ((c :: cs).drop 7)
    else c :: scanSpoilerWord fuel (isWordChar c) cs

/-- `stripSpoilers` (src/build.mjs lines 19-24): replace spoiler spans
with the placeholder, then delete standalone `spoiler` words (the second
pass runs on the output of the first, so it also eats the word inside
the just-inserted placeholder). -/
def stripSpoilers (html : List Nat) : List Nat :=
  let a := runRep matchSpoilerSpan (str "[spoiler removed]") html
  scanSpoilerWord a.length false a

/-- `htmlToText` (src/build.mjs lines 26-39): the nine chained
replacements followed by `trim`, in source order. -/
def htmlToText (html : List Nat) : List Nat :=
  let a1 := runRep matchBr [10] html
  let a2 := runRep matchPEnd [10] a1
  let a3 := runRep matchTag [] a2
  let a4 := runRep (matchLit (str "&nbsp;")) [32] a3
  let a5 := runRep (matchLit (str "&amp;")) [38] a4
  let a6 := runRep (matchLit (str "&lt;")) [60] a5
  let a7 := runRep (matchLit (str "&gt;")) [62] a6
  let a8 := runRep (matchLit (str "&quot;")) [34] a7
  let a9 := runRep (matchLit (str "&#39;")) [39] a8
  jsTrim a9

/-- The spec's Text Normalizer: spoiler redaction (applied at fetch
time, src/build.mjs line 388) followed by markup stripping (applied at
render time, src/build.mjs line 443). -/
def normalizeDescription (x : List Nat) : List Nat :=
  htmlToText (stripSpoilers x)

-- ### Character classes and concrete material used by the claims

/-- ASCII letter. -/
def isAsciiLetter (c : Nat) : Bool := (65 ≤ c ∧ c ≤ 90) ∨ (97 ≤ c ∧ c ≤ 122)

/-- ASCII digit. -/
def isAsciiDigit (c : Nat) : Bool := 48 ≤ c ∧ c ≤ 57

/-- Hiragana / katakana blocks (U+3040-U+30FF). -/
def isKanaChar (c : Nat) : Bool := 0x3040 ≤ c ∧ c ≤ 0x30FF

/-- ASCII punctuation. -/
def isAsciiPunct (c : Nat) : Bool :=
  (0x21 ≤ c ∧ c ≤ 0x2F) ∨ (0x3A ≤ c ∧ c ≤ 0x40) ∨ (0x5B ≤ c ∧ c ≤ 0x60) ∨
  (0x7B ≤ c ∧ c ≤ 0x7E)

/-- The spec's worked lexicon: Surnames = \x7b"綾瀬"\x7d, GivenNames = \x7b"桃"\x7d. -/
def demoLexicon : Lexicon := ⟨[str "綾瀬"], [str "桃"]⟩

/-- A JMnedict record tagged `surname` with written form "綾瀬". -/
def demoSurnameWord : JmWord := ⟨[⟨str "綾瀬"⟩], [⟨[str "surname"]⟩]⟩

/-- A JMnedict record tagged `given` with written form "桃". -/
def demoGivenWord : JmWord := ⟨[⟨str "桃"⟩], [⟨[str "given"]⟩]⟩

/-- A written form containing a non-CJK character (Greek Α). -/
def demoBadForm : List Nat := str "Α瀬"

/-- An eight-character all-CJK string on which two cuts tie. -/
def tieString : List Nat := List.replicate 8 0x6843

/-- A lexicon making exactly cuts 4 and 5 of `tieString` keepable, with
equal scores. -/
def tieLexicon : Lexicon :=
  ⟨[tieString.take 4, tieString.take 5], [tieString.drop 4, tieString.drop 5]⟩

/-- A string whose 2- and 3-character surname cuts are both keepable
against `prefLexicon`. -/
def prefString : List Nat := str "綾瀬桃桃"

/-- Lexicon for `prefString`: both "綾瀬" and "綾瀬桃" are surnames,
both "桃桃" and "桃" are given names. -/
def prefLexicon : Lexicon := ⟨[str "綾瀬", str "綾瀬桃"], [str "桃桃", str "桃"]⟩

/-- Lexicon for the whitespace counterexample to the round-trip claim. -/
def padLexicon : Lexicon := ⟨[str "山田"], [str "太郎"]⟩

-- ### Generic lemmas about `dropWhile` and `jsTrim`

theorem dropWhile_idem (p : α → Bool) (l : List α) :
    (l.dropWhile p).dropWhile p = l.dropWhile p := by
  induction l with
  | nil => rfl
  | cons a l ih =>
    by_cases h : p a <;> simp [List.dropWhile_cons, h, ih]

theorem dropWhile_eq_self_of_prefix {p : α → Bool} {l m : List α}
    (hpre : l <+: m) (hm : m.dropWhile p = m) : l.dropWhile p = l := by
  cases l with
  | nil => rfl
  | cons a l =>
    obtain ⟨t, ht⟩ := hpre
    subst ht
    simp only [List.cons_append, List.dropWhile_cons] at hm ⊢
    by_cases h : p a
    · exfalso
      rw [if_pos h] at hm
      have hsuf : List.dropWhile p (l ++ t) <:+ l ++ t :=
        List.dropWhile_suffix p
      have hlen := hsuf.length_le
      have hcong := congrArg List.length hm
      simp only [List.length_cons, List.length_append] at hlen hcong
      omega
    · rw [if_neg h]

theorem jsTrim_idem (l : List Nat) : jsTrim (jsTrim l) = jsTrim l := by
  unfold jsTrim
  set A := l.dropWhile isJsWs with hA
  have hAfix : A.dropWhile isJsWs = A := by
    rw [hA]; exact dropWhile_idem _ _
  set Y := (A.reverse.dropWhile isJsWs).reverse with hY
  have hYpre : Y <+: A := by
    rw [hY]
    have hsuf : A.reverse.dropWhile isJsWs <:+ A.reverse :=
      List.dropWhile_suffix _
    have h2 : (A.reverse.dropWhile isJsWs).reverse <+: A.reverse.reverse ↔
        A.reverse.dropWhile isJsWs <:+ A.reverse := List.reverse_prefix
    rw [List.reverse_reverse] at h2
    exact h2.mpr hsuf
  have hYfix : Y.dropWhile isJsWs = Y := dropWhile_eq_self_of_prefix hYpre hAfix
  rw [hYfix, hY, List.reverse_reverse, dropWhile_idem]

theorem mem_dropWhile_of_not {p : α → Bool} {c : α} {l : List α}
    (hc : c ∈ l) (hp : ¬ p c = true) : c ∈ l.dropWhile p := by
  induction l with
  | nil => cases hc
  | cons a l ih =>
    rw [List.dropWhile_cons]
    by_cases h : p a
    · rw [if_pos h]
      rcases List.mem_cons.mp hc with rfl | hmem
      · exact absurd h hp
      · exact ih hmem
    · rw [if_neg h]; exact hc

theorem mem_jsTrim_of_not_ws {c : Nat} {l : List Nat}
    (hc : c ∈ l) (hw : ¬ isJsWs c = true) : c ∈ jsTrim l := by
  unfold jsTrim
  rw [List.mem_reverse]
  apply mem_dropWhile_of_not _ hw
  rw [List.mem_reverse]
  exact mem_dropWhile_of_not hc hw

theorem jsTrim_eq_nil_of_all_ws {l : List Nat}
    (h : ∀ c ∈ l, isJsWs c = true) : jsTrim l = [] := by
  unfold jsTrim
  have h1 : l.dropWhile isJsWs = [] := List.dropWhile_eq_nil_iff.mpr h
  rw [h1]
  rfl

theorem jsTrim_subset (l : List Nat) : jsTrim l ⊆ l := by
  intro c hc
  unfold jsTrim at hc
  rw [List.mem_reverse] at hc
  have h0 : List.dropWhile isJsWs (l.dropWhile isJsWs).reverse <:+
      (l.dropWhile isJsWs).reverse := List.dropWhile_suffix isJsWs
  have h1 := h0.subset hc
  rw [List.mem_reverse] at h1
  exact (List.dropWhile_suffix isJsWs).subset h1

theorem isAllCjk_mem {s : List Nat} (h : isAllCjk s = true) :
    ∀ c ∈ jsTrim s, isCjkChar c = true := by
  unfold isAllCjk at h
  simp only [decide_eq_true_eq, List.all_eq_true] at h
  exact h.2

theorem utf16Len_eq_length {l : List Nat}
    (h : ∀ c ∈ l, isCjkChar c = true) : utf16Len l = l.length := by
  induction l with
  | nil => rfl
  | cons a l ih =>
    have ha : isCjkChar a = true := h a (List.mem_cons_self _ _)
    have ha' : a < 0x10000 := by
      simp only [isCjkChar, decide_eq_true_eq] at ha
      omega
    unfold utf16Len at ih ⊢
    simp only [List.map_cons, List.sum_cons, if_pos ha']
    rw [ih fun c hc => h c (List.mem_cons_of_mem _ hc)]
    simp only [List.length_cons]
    omega

-- ### Lemmas about the scan loop

theorem stepCut_cases (jm : Lexicon) (s : List Nat) (best : Option Cand)
    (c : Nat) :
    stepCut jm s best c = best ∨
      (s.take c ∈ jm.surnames ∧ s.drop c ∈ jm.givennames ∧
        stepCut jm s best c = some ⟨s.take c, s.drop c, scoreAt s c⟩) := by
  by_cases h : s.take c ∈ jm.surnames ∧ s.drop c ∈ jm.givennames
  · match best with
    | none => exact Or.inr ⟨h.1, h.2, by simp [stepCut, h, scoreAt]⟩
    | some b =>
      by_cases hsc : b.score < scoreOf (s.take c) (s.drop c) c
      · exact Or.inr ⟨h.1, h.2, by simp [stepCut, h, hsc, scoreAt]⟩
      · exact Or.inl (by simp [stepCut, h, hsc])
  · exact Or.inl (by simp [stepCut, h])

theorem foldl_stepCut_shape (jm : Lexicon) (s : List Nat) :
    ∀ (cuts : List Nat) (b0 : Option Cand),
      cuts.foldl (stepCut jm s) b0 = b0 ∨
        ∃ c ∈ cuts, s.take c ∈ jm.surnames ∧ s.drop c ∈ jm.givennames ∧
          cuts.foldl (stepCut jm s) b0 =
            some ⟨s.take c, s.drop c, scoreAt s c⟩ := by
  intro cuts
  induction cuts with
  | nil => intro b0; exact Or.inl rfl
  | cons c cs ih =>
    intro b0
    rw [List.foldl_cons]
    rcases ih (stepCut jm s b0 c) with heq | ⟨d, hd, h1, h2, h3⟩
    · rw [heq]
      rcases stepCut_cases jm s b0 c with h | ⟨h1, h2, h3⟩
      · exact Or.inl h
      · exact Or.inr ⟨c, List.mem_cons_self _ _, h1, h2, h3⟩
    · exact Or.inr ⟨d, List.mem_cons_of_mem _ hd, h1, h2, h3⟩

theorem stepCut_some_isSome (jm : Lexicon) (s : List Nat) (b : Cand) (c : Nat) :
    (stepCut jm s (some b) c).isSome = true := by
  unfold stepCut
  by_cases h : s.take c ∈ jm.surnames ∧ s.drop c ∈ jm.givennames
  · rw [if_pos h]
    by_cases hsc : b.score < scoreOf (s.take c) (s.drop c) c
    · simp [hsc]
    · simp [hsc]
  · rw [if_neg h]; rfl

theorem foldl_stepCut_some_isSome (jm : Lexicon) (s : List Nat) :
    ∀ (cuts : List Nat) (b : Cand),
      (cuts.foldl (stepCut jm s) (some b)).isSome = true := by
  intro cuts
  induction cuts with
  | nil => intro b; rfl
  | cons c cs ih =>
    intro b
    rw [List.foldl_cons]
    have h := stepCut_some_isSome jm s b c
    match hm : stepCut jm s (some b) c with
    | some b2 => exact ih b2
    | none => rw [hm] at h; cases h

theorem foldl_stepCut_none_iff (jm : Lexicon) (s : List Nat) :
    ∀ cuts : List Nat,
      cuts.foldl (stepCut jm s) none = none ↔
        ∀ c ∈ cuts, ¬(s.take c ∈ jm.surnames ∧ s.drop c ∈ jm.givennames) := by
  intro cuts
  induction cuts with
  | nil => simp
  | cons c cs ih =>
    rw [List.foldl_cons]
    constructor
    · intro h
      intro d hd
      by_cases hc : s.take c ∈ jm.surnames ∧ s.drop c ∈ jm.givennames
      · exfalso
        have hsome : stepCut jm s none c ≠ none := by
          unfold stepCut
          rw [if_pos hc]
          simp
        match hm : stepCut jm s none c with
        | none => exact hsome hm
        | some b =>
          have := foldl_stepCut_some_isSome jm s cs b
          rw [hm] at h
          rw [h] at this
          cases this
      · have hnone : stepCut jm s none c = none := by
          unfold stepCut
          rw [if_neg hc]
        rw [hnone] at h
        rcases List.mem_cons.mp hd with rfl | hmem
        · exact hc
        · exact (ih.mp h) d hmem
    · intro h
      have hnone : stepCut jm s none c = none := by
        unfold stepCut
        rw [if_neg (h c (List.mem_cons_self _ _))]
      rw [hnone]
      exact ih.mpr fun d hd => h d (List.mem_cons_of_mem _ hd)

theorem foldl_stepCut_dominated (jm : Lexicon) (s : List Nat) :
    ∀ (cuts : List Nat) (b0 : Cand),
      (∀ c ∈ cuts, s.take c ∈ jm.surnames → s.drop c ∈ jm.givennames →
        scoreAt s c ≤ b0.score) →
      cuts.foldl (stepCut jm s) (some b0) = some b0 := by
  intro cuts
  induction cuts with
  | nil => intro b0 _; rfl
  | cons c cs ih =>
    intro b0 h
    rw [List.foldl_cons]
    have hstep : stepCut jm s (some b0) c = some b0 := by
      by_cases hc : s.take c ∈ jm.surnames ∧ s.drop c ∈ jm.givennames
      · have hle := h c (List.mem_cons_self _ _) hc.1 hc.2
        unfold scoreAt at hle
        have hnlt : ¬ b0.score < scoreOf (s.take c) (s.drop c) c := by omega
        simp [stepCut, hc, hnlt]
      · simp [stepCut, hc]
    rw [hstep]
    exact ih b0 fun d hd h1 h2 => h d (List.mem_cons_of_mem _ hd) h1 h2

theorem scoreAt_formula {s : List Nat} (hcjk : ∀ c ∈ s, isCjkChar c = true)
    {c : Nat} (hc : c ≤ s.length) :
    scoreAt s c = 100 + (if c = 2 then 15 else 0) + (if c = 3 then 8 else 0) +
      min 5 c + min 5 (s.length - c) := by
  unfold scoreAt scoreOf
  have htake : utf16Len (s.take c) = c := by
    rw [utf16Len_eq_length fun d hd => hcjk d (List.take_subset _ _ hd)]
    rw [List.length_take]
    omega
  have hdrop : utf16Len (s.drop c) = s.length - c := by
    rw [utf16Len_eq_length fun d hd => hcjk d (List.drop_subset _ _ hd)]
    rw [List.length_drop]
  rw [htake, hdrop]

theorem mem_range'_bounds {a len c : Nat} (h : c ∈ List.range' a len) :
    a ≤ c ∧ c < a + len := by
  rw [List.mem_range'] at h
  obtain ⟨i, hi, rfl⟩ := h
  omega

theorem stepCut_some_replace (jm : Lexicon) (s : List Nat) (b : Cand) (c : Nat)
    (h1 : s.take c ∈ jm.surnames) (h2 : s.drop c ∈ jm.givennames)
    (hlt : b.score < scoreOf (s.take c) (s.drop c) c) :
    stepCut jm s (some b) c =
      some ⟨s.take c, s.drop c, scoreOf (s.take c) (s.drop c) c⟩ := by
  simp [stepCut, h1, h2, hlt]

theorem bestSplit_eq_of_choice (s : List Nat) (jm : Lexicon) (c0 : Nat)
    (hfix : jsTrim s = s) (hcjk : isAllCjk s = true) (hn : s.length ≤ 8)
    (hk : keepable s jm c0)
    (hmax : ∀ c, c < s.length → keepable s jm c → scoreAt s c ≤ scoreAt s c0)
    (hmin : ∀ c, c < s.length → keepable s jm c → scoreAt s c = scoreAt s c0 →
      c0 ≤ c) :
    bestSplitWithJmnedict s jm = some (s.take c0, s.drop c0) := by
  obtain ⟨hc1, hc2, hsur, hgiv⟩ := hk
  have hn2 : 2 ≤ s.length := by omega
  have hne : ¬(s = [] ∨ isAllCjk s = false) := by
    push_neg
    constructor
    · intro habs; rw [habs] at hn2; simp at hn2
    · simp [hcjk]
  have hlen : ¬(s.length < 2 ∨ 8 < s.length) := by omega
  simp only [bestSplitWithJmnedict, hfix]
  rw [if_neg hne, if_neg hlen]
  have e2 : (s.length - c0) + (c0 - 1) = s.length - 1 := by omega
  have e3 : 1 + 1 * (c0 - 1) = c0 := by omega
  have hsplit := List.range'_append 1 (c0 - 1) (s.length - c0) 1
  rw [e3, e2] at hsplit
  have e1 : s.length - c0 = (s.length - 1 - c0) + 1 := by omega
  rw [e1, List.range'_succ] at hsplit
  rw [← hsplit, List.foldl_append, List.foldl_cons]
  have hcand0 :
      ∀ b1 : Option Cand, stepCut jm s b1 c0 =
          some ⟨s.take c0, s.drop c0, scoreAt s c0⟩ →
        (List.range' (c0 + 1) (s.length - 1 - c0)).foldl (stepCut jm s)
            (stepCut jm s b1 c0) =
          some ⟨s.take c0, s.drop c0, scoreAt s c0⟩ := by
    intro b1 hb1
    rw [hb1]
    apply foldl_stepCut_dominated
    intro c hcmem h1 h2
    have hb := mem_range'_bounds hcmem
    exact hmax c (by omega) ⟨by omega, by omega, h1, h2⟩
  have hfinish :
      (List.range' (c0 + 1) (s.length - 1 - c0)).foldl (stepCut jm s)
          (stepCut jm s
            ((List.range' 1 (c0 - 1)).foldl (stepCut jm s) none) c0) =
        some ⟨s.take c0, s.drop c0, scoreAt s c0⟩ := by
    rcases foldl_stepCut_shape jm s (List.range' 1 (c0 - 1)) none with
      heq | ⟨c, hcmem, hs1, hs2, heq⟩
    · rw [heq]
      exact hcand0 none (by simp [stepCut, hsur, hgiv, scoreAt])
    · rw [heq]
      have hb := mem_range'_bounds hcmem
      have hkc : keepable s jm c := ⟨by omega, by omega, hs1, hs2⟩
      have hlt : scoreAt s c < scoreAt s c0 := by
        have hle := hmax c (by omega) hkc
        rcases Nat.lt_or_ge (scoreAt s c) (scoreAt s c0) with h | h
        · exact h
        · exfalso
          have heqs : scoreAt s c = scoreAt s c0 := by omega
          have := hmin c (by omega) hkc heqs
          omega
      apply hcand0
      exact stepCut_some_replace jm s _ c0 hsur hgiv hlt
  rw [hfinish]


-- ### Invariants of the alias accumulator

theorem aliasInv_nil : AliasInv [] :=
  ⟨fun x hx => absurd hx (List.not_mem_nil x), List.nodup_nil⟩

theorem addAlias_inv {l : List (List Nat)} (h : AliasInv l) (s : List Nat) :
    AliasInv (addAlias l s) := by
  unfold addAlias
  by_cases h1 : jsTrim s = []
  · rw [if_pos h1]; exact h
  rw [if_neg h1]
  by_cases h2 : jsTrim s ∈ l
  · rw [if_pos h2]; exact h
  rw [if_neg h2]
  constructor
  · intro x hx
    rcases List.mem_append.mp hx with hl | hr
    · exact h.1 x hl
    · have hx' : x = jsTrim s := List.mem_singleton.mp hr
      subst hx'
      exact ⟨h1, jsTrim_idem s⟩
  · rw [List.nodup_append]
    refine ⟨h.2, List.nodup_singleton _, ?_⟩
    intro a hal har
    have : a = jsTrim s := List.mem_singleton.mp har
    subst this
    exact h2 hal

theorem foldl_addAlias_inv {l : List (List Nat)} (h : AliasInv l) :
    ∀ ps : List (List Nat), AliasInv (ps.foldl addAlias l) := by
  intro ps
  induction ps generalizing l with
  | nil => exact h
  | cons p ps ih => exact ih (addAlias_inv h p)

theorem foldl_addAlias2_inv (lower : List Nat → List Nat)
    {l : List (List Nat)} (h : AliasInv l) :
    ∀ ps : List (List Nat),
      AliasInv (ps.foldl (fun acc p => addAlias (addAlias acc p) (lower p)) l) := by
  intro ps
  induction ps generalizing l with
  | nil => exact h
  | cons p ps ih => exact ih (addAlias_inv (addAlias_inv h p) (lower p))

theorem aliasStage1_inv (native full : List Nat) (lower : List Nat → List Nat) :
    AliasInv (aliasStage1 native full lower) := by
  unfold aliasStage1
  have h2 : AliasInv (addAlias (addAlias [] native) full) :=
    addAlias_inv (addAlias_inv aliasInv_nil native) full
  by_cases hn : ¬ native = [] <;> by_cases hf : ¬ full = [] <;>
    simp only [if_pos, if_neg, hn, hf, ite_true, ite_false] <;>
    first
      | exact addAlias_inv (addAlias_inv (addAlias_inv h2 _) _) _
      | exact addAlias_inv (addAlias_inv h2 _) _
      | exact addAlias_inv h2 _
      | exact h2

theorem aliasStage2_inv (native : List Nat) (jm : Option Lexicon)
    {l : List (List Nat)} (h : AliasInv l) : AliasInv (aliasStage2 native jm l) := by
  unfold aliasStage2
  by_cases hp : 2 ≤ (splitParts native).length
  · rw [if_pos hp]
    exact foldl_addAlias_inv h _
  rw [if_neg hp]
  cases jm with
  | none => exact h
  | some lex =>
    show AliasInv (if ¬ native = [] ∧ isAllCjk native = true then
        match bestSplitWithJmnedict native lex with
        | some (sur, giv) => addAlias (addAlias l sur) giv
        | none => l
      else l)
    by_cases hc : ¬ native = [] ∧ isAllCjk native = true
    · rw [if_pos hc]
      rcases hbs : bestSplitWithJmnedict native lex with _ | ⟨sur, giv⟩
      · exact h
      · exact addAlias_inv (addAlias_inv h sur) giv
    · rw [if_neg hc]
      exact h

theorem aliasStage3_inv (full : List Nat) (lower : List Nat → List Nat)
    {l : List (List Nat)} (h : AliasInv l) : AliasInv (aliasStage3 full lower l) := by
  unfold aliasStage3
  by_cases hp : 2 ≤ (splitParts full).length
  · rw [if_pos hp]
    exact foldl_addAlias2_inv lower h _
  · rw [if_neg hp]
    exact h

theorem makeAliases_inv (nameNative nameFull : List Nat) (jm : Option Lexicon)
    (lower : List Nat → List Nat) : AliasInv (makeAliases nameNative nameFull jm lower) :=
  aliasStage3_inv _ _ (aliasStage2_inv _ _ (aliasStage1_inv _ _ _))

theorem count_eq_one_of_mem_nodup {l : List (List Nat)} {a : List Nat}
    (hn : l.Nodup) (ha : a ∈ l) : l.count a = 1 := by
  induction l with
  | nil => cases ha
  | cons b l ih =>
    have hbc := List.nodup_cons.mp hn
    rw [List.count_cons]
    rcases List.mem_cons.mp ha with rfl | hmem
    · have h0 : l.count a = 0 := by
        rw [List.count_eq_zero]
        exact hbc.1
      simp [h0]
    · have hne : ¬ b = a := by
        rintro rfl
        exact hbc.1 hmem
      rw [ih hbc.2 hmem]
      simp [hne]

/-- C10: for every pair of name inputs, every optional lexicon and every
case mapping, each string produced by `makeAliases` is non-empty, equals
its own trim, and occurs exactly once in the returned collection. -/
theorem c10_alias_invariants (nameNative nameFull : List Nat)
    (jm : Option Lexicon) (lower : List Nat → List Nat) :
    ∀ x ∈ makeAliases nameNative nameFull jm lower,
      ¬ x = [] ∧ jsTrim x = x ∧
        (makeAliases nameNative nameFull jm lower).count x = 1 := by
  intro x hx
  have h := makeAliases_inv nameNative nameFull jm lower
  exact ⟨(h.1 x hx).1, (h.1 x hx).2, count_eq_one_of_mem_nodup h.2 hx⟩

theorem c10_witness :
    ¬ (str "桃") = [] ∧ jsTrim (str "桃") = str "桃" ∧
      (makeAliases (str "桃") [] none asciiLowerStr).count (str "桃") = 1 :=
  c10_alias_invariants (str "桃") [] none asciiLowerStr (str "桃") (by decide)

/-- C8: `makeAliases("山田 太郎", "Taro Yamada")` contains "山田",
"太郎", "山田太郎" and "taro yamada"; and whenever the separator split
of the (trimmed) native name has two or more parts, the result is
independent of the lexicon argument, i.e. the segmentation engine is
never consulted on that path. -/
theorem c8_separator_path :
    (str "山田" ∈ makeAliases (str "山田 太郎") (str "Taro Yamada") none asciiLowerStr ∧
     str "太郎" ∈ makeAliases (str "山田 太郎") (str "Taro Yamada") none asciiLowerStr ∧
     str "山田太郎" ∈ makeAliases (str "山田 太郎") (str "Taro Yamada") none asciiLowerStr ∧
     str "taro yamada" ∈ makeAliases (str "山田 太郎") (str "Taro Yamada") none asciiLowerStr) ∧
    ∀ (nameNative nameFull : List Nat) (jm jm2 : Option Lexicon)
      (lower : List Nat → List Nat),
      2 ≤ (splitParts (jsTrim nameNative)).length →
      makeAliases nameNative nameFull jm lower =
        makeAliases nameNative nameFull jm2 lower := by
  constructor
  · exact ⟨by decide, by decide, by decide, by decide⟩
  · intro nameNative nameFull jm jm2 lower h
    simp only [makeAliases, aliasStage2, h, ite_true, if_pos]

theorem c8_witness :
    makeAliases (str "山田 太郎") [] none asciiLowerStr =
      makeAliases (str "山田 太郎") [] (some demoLexicon) asciiLowerStr :=
  c8_separator_path.2 (str "山田 太郎") [] none (some demoLexicon)
    asciiLowerStr (by decide)

-- ### All-CJK invariant of the lexicon build

theorem insertSet_mem {l : List (List Nat)} {x t : List Nat}
    (h : x ∈ insertSet l t) : x ∈ l ∨ x = t := by
  unfold insertSet at h
  by_cases ht : t ∈ l
  · rw [if_pos ht] at h; exact Or.inl h
  · rw [if_neg ht] at h
    rcases List.mem_append.mp h with h1 | h1
    · exact Or.inl h1
    · exact Or.inr (List.mem_singleton.mp h1)

theorem condInsertSet_all {P : List Nat → Prop} {l : List (List Nat)}
    {t : List Nat} (b : Bool) (hl : ∀ y ∈ l, P y) (ht : P t) :
    ∀ y ∈ (if b then insertSet l t else l), P y := by
  cases b
  · exact hl
  · intro y hy
    rcases insertSet_mem hy with h | rfl
    · exact hl y h
    · exact ht

theorem setPairFold_cjk (surname given : Bool) (ks : List JmKanji) :
    ∀ acc : List (List Nat) × List (List Nat),
      (∀ y ∈ acc.1, isAllCjk y = true) → (∀ y ∈ acc.2, isAllCjk y = true) →
      (∀ y ∈ (ks.foldl
          (fun ac k =>
            let txt := jsTrim k.text
            if txt = [] ∨ isAllCjk txt = false then ac
            else ((if surname then insertSet ac.1 txt else ac.1),
                  (if given then insertSet ac.2 txt else ac.2)))
          acc).1, isAllCjk y = true) ∧
      (∀ y ∈ (ks.foldl
          (fun ac k =>
            let txt := jsTrim k.text
            if txt = [] ∨ isAllCjk txt = false then ac
            else ((if surname then insertSet ac.1 txt else ac.1),
                  (if given then insertSet ac.2 txt else ac.2)))
          acc).2, isAllCjk y = true) := by
  induction ks with
  | nil => intro acc h1 h2; exact ⟨h1, h2⟩
  | cons k ks ih =>
    intro acc h1 h2
    rw [List.foldl_cons]
    by_cases hg : jsTrim k.text = [] ∨ isAllCjk (jsTrim k.text) = false
    · simp only [if_pos hg]
      exact ih acc h1 h2
    · simp only [if_neg hg]
      push_neg at hg
      have htxt : isAllCjk (jsTrim k.text) = true := by
        cases hb : isAllCjk (jsTrim k.text)
        · exact absurd hb hg.2
        · rfl
      exact ih _ (condInsertSet_all surname h1 htxt)
        (condInsertSet_all given h2 htxt)

theorem addWordForms_cjk {acc : List (List Nat) × List (List Nat)}
    (h1 : ∀ y ∈ acc.1, isAllCjk y = true)
    (h2 : ∀ y ∈ acc.2, isAllCjk y = true) (w : JmWord) :
    (∀ y ∈ (addWordForms acc w).1, isAllCjk y = true) ∧
    (∀ y ∈ (addWordForms acc w).2, isAllCjk y = true) := by
  unfold addWordForms
  by_cases hf : ((wordTypes w).any isSurnameType) = false ∧
      ((wordTypes w).any isGivenType) = false
  · simp only [if_pos hf]
    exact ⟨h1, h2⟩
  · simp only [if_neg hf]
    exact setPairFold_cjk _ _ w.kanji acc h1 h2

theorem buildNameSets_cjk (words : List JmWord) :
    (∀ y ∈ (buildNameSets words).1, isAllCjk y = true) ∧
    (∀ y ∈ (buildNameSets words).2, isAllCjk y = true) := by
  unfold buildNameSets
  have main : ∀ (ws : List JmWord) (acc : List (List Nat) × List (List Nat)),
      (∀ y ∈ acc.1, isAllCjk y = true) → (∀ y ∈ acc.2, isAllCjk y = true) →
      (∀ y ∈ (ws.foldl addWordForms acc).1, isAllCjk y = true) ∧
      (∀ y ∈ (ws.foldl addWordForms acc).2, isAllCjk y = true) := by
    intro ws
    induction ws with
    | nil => intro acc h1 h2; exact ⟨h1, h2⟩
    | cons w ws ih =>
      intro acc h1 h2
      rw [List.foldl_cons]
      have := addWordForms_cjk h1 h2 w
      exact ih _ this.1 this.2
  exact main words ([], [])
    (fun y hy => absurd hy (List.not_mem_nil y))
    (fun y hy => absurd hy (List.not_mem_nil y))

/-- C6: building the lexicon from one record tagged `surname` with form
"綾瀬" and one tagged `given` with form "桃" yields exactly those two
sets; and for any record sequence, no string failing the CJK predicate
(such as "Α瀬") ever enters either output set, whatever the tags. -/
theorem c6_lexicon_build :
    buildNameSets [demoSurnameWord, demoGivenWord] = ([str "綾瀬"], [str "桃"]) ∧
    ∀ (words : List JmWord) (x : List Nat), isAllCjk x = false →
      ¬ x ∈ (buildNameSets words).1 ∧ ¬ x ∈ (buildNameSets words).2 := by
  constructor
  · decide
  · intro words x hx
    have h := buildNameSets_cjk words
    constructor
    · intro hm
      rw [h.1 x hm] at hx
      cases hx
    · intro hm
      rw [h.2 x hm] at hx
      cases hx

theorem c6_witness :
    isAllCjk demoBadForm = false ∧
    ¬ demoBadForm ∈ (buildNameSets [demoSurnameWord]).1 ∧
    ¬ demoBadForm ∈ (buildNameSets [demoSurnameWord]).2 :=
  ⟨by decide, c6_lexicon_build.2 [demoSurnameWord] demoBadForm (by decide)⟩

/-- C7: the lexicon build yields an error, never an index, exactly when
the raw source is unparseable or contains no records. -/
theorem c7_fail_loudly :
    ∀ parsed : Option JmRoot,
      (loadJmnedictSets parsed).isOk = false ↔
        (parsed = none ∨ parsedWords parsed = []) := by
  intro parsed
  match parsed with
  | none => simp [loadJmnedictSets, Except.isOk, Except.toBool]
  | some root =>
    simp only [loadJmnedictSets, parsedWords]
    by_cases h : root.words.getD [] = []
    · rw [if_pos h]
      simp [Except.isOk, Except.toBool, h]
    · rw [if_neg h]
      simp [Except.isOk, Except.toBool, h]

theorem c7_witness : (loadJmnedictSets none).isOk = false :=
  (c7_fail_loudly none).mpr (Or.inl rfl)

/-- C1 counterexample: on an input carrying a leading space the engine
returns a split whose concatenation is the trimmed input, not the input
itself, so the round-trip clause of the claim fails as stated. -/
theorem c1_counterexample :
    bestSplitWithJmnedict (32 :: str "山田太郎") padLexicon =
      some (str "山田", str "太郎") ∧
    ¬ (str "山田" ++ str "太郎" = 32 :: str "山田太郎") := by decide

/-- C1 (amended): whenever the segmentation engine returns a result,
both halves are non-empty members of the corresponding lexicon sets and
their concatenation equals the whitespace-trimmed input (hence the input
itself whenever it carries no surrounding whitespace). -/
theorem c1_split_soundness :
    ∀ (input : List Nat) (jm : Lexicon) (sur giv : List Nat),
      bestSplitWithJmnedict input jm = some (sur, giv) →
      ¬ sur = [] ∧ ¬ giv = [] ∧ sur ∈ jm.surnames ∧ giv ∈ jm.givennames ∧
        sur ++ giv = jsTrim input := by
  intro input jm sur giv h
  simp only [bestSplitWithJmnedict] at h
  by_cases h1 : jsTrim input = [] ∨ isAllCjk (jsTrim input) = false
  · rw [if_pos h1] at h; exact Option.noConfusion h
  rw [if_neg h1] at h
  by_cases h2 : (jsTrim input).length < 2 ∨ 8 < (jsTrim input).length
  · rw [if_pos h2] at h; exact Option.noConfusion h
  rw [if_neg h2] at h
  push_neg at h2
  rcases foldl_stepCut_shape jm (jsTrim input)
      (List.range' 1 ((jsTrim input).length - 1)) none with
    heq | ⟨c, hcmem, hm1, hm2, heq⟩
  · rw [heq] at h; exact Option.noConfusion h
  · rw [heq] at h
    have h' : ((jsTrim input).take c, (jsTrim input).drop c) = (sur, giv) :=
      Option.some.inj h
    have hsur : (jsTrim input).take c = sur := congrArg Prod.fst h'
    have hgiv : (jsTrim input).drop c = giv := congrArg Prod.snd h'
    subst hsur
    subst hgiv
    have hb := mem_range'_bounds hcmem
    push_neg at h1
    refine ⟨?_, ?_, hm1, hm2, List.take_append_drop c (jsTrim input)⟩
    · intro hnil
      rcases List.take_eq_nil_iff.mp hnil with h0 | h0
      · omega
      · exact h1.1 h0
    · intro hnil
      have := List.drop_eq_nil_iff.mp hnil
      omega

theorem c1_witness :
    ¬ (str "綾瀬") = [] ∧ ¬ (str "桃") = [] ∧
      str "綾瀬" ∈ demoLexicon.surnames ∧ str "桃" ∈ demoLexicon.givennames ∧
      str "綾瀬" ++ str "桃" = jsTrim (str "綾瀬桃") :=
  c1_split_soundness (str "綾瀬桃") demoLexicon (str "綾瀬") (str "桃")
    (by decide)

/-- C2 counterexample: a leading-space input satisfies none of the
claim's null conditions when they are read on the raw input (non-empty,
passes `isAllCjk`, length within `[2, 8]`, and no raw cut has both
halves in the lexicon), yet the engine returns a non-null split — the
conditions actually apply to the trimmed input. -/
theorem c2_counterexample :
    ¬ (32 :: str "綾瀬桃") = [] ∧
    isAllCjk (32 :: str "綾瀬桃") = true ∧
    2 ≤ (32 :: str "綾瀬桃").length ∧ (32 :: str "綾瀬桃").length ≤ 8 ∧
    (∀ c, c < (32 :: str "綾瀬桃").length →
      ¬((32 :: str "綾瀬桃").take c ∈ demoLexicon.surnames ∧
        (32 :: str "綾瀬桃").drop c ∈ demoLexicon.givennames)) ∧
    ¬ bestSplitWithJmnedict (32 :: str "綾瀬桃") demoLexicon = none := by
  decide

/-- C2 (amended): the engine returns null exactly when the
whitespace-trimmed input is empty, fails the CJK test, has character
length outside `[2, 8]`, or admits no cut with both halves in the
lexicon; in every other case the result is non-null. -/
theorem c2_null_characterization :
    ∀ (input : List Nat) (jm : Lexicon),
      bestSplitWithJmnedict input jm = none ↔
        (jsTrim input = [] ∨ isAllCjk (jsTrim input) = false ∨
         (jsTrim input).length < 2 ∨ 8 < (jsTrim input).length ∨
         ∀ c, 1 ≤ c → c ≤ (jsTrim input).length - 1 →
           ¬((jsTrim input).take c ∈ jm.surnames ∧
             (jsTrim input).drop c ∈ jm.givennames)) := by
  intro input jm
  simp only [bestSplitWithJmnedict]
  by_cases h1 : jsTrim input = [] ∨ isAllCjk (jsTrim input) = false
  · rw [if_pos h1]
    constructor
    · intro _
      rcases h1 with a | b
      · exact Or.inl a
      · exact Or.inr (Or.inl b)
    · intro _; rfl
  rw [if_neg h1]
  by_cases h2 : (jsTrim input).length < 2 ∨ 8 < (jsTrim input).length
  · rw [if_pos h2]
    constructor
    · intro _
      rcases h2 with a | b
      · exact Or.inr (Or.inr (Or.inl a))
      · exact Or.inr (Or.inr (Or.inr (Or.inl b)))
    · intro _; rfl
  rw [if_neg h2]
  push_neg at h1 h2
  constructor
  · intro h
    rcases hf : (List.range' 1 ((jsTrim input).length - 1)).foldl
        (stepCut jm (jsTrim input)) none with _ | b
    · have hall := (foldl_stepCut_none_iff jm (jsTrim input) _).mp hf
      refine Or.inr (Or.inr (Or.inr (Or.inr ?_)))
      intro c hcl hcu
      apply hall
      exact List.mem_range'.mpr ⟨c - 1, by omega, by omega⟩
    · rw [hf] at h
      exact Option.noConfusion h
  · intro h
    rcases h with a | h
    · exact absurd a h1.1
    rcases h with b | h
    · exact absurd b h1.2
    rcases h with hc | h
    · exact absurd hc (by omega)
    rcases h with hd | h
    · exact absurd hd (by omega)
    · have hf : (List.range' 1 ((jsTrim input).length - 1)).foldl
          (stepCut jm (jsTrim input)) none = none := by
        apply (foldl_stepCut_none_iff jm (jsTrim input) _).mpr
        intro c hcmem
        have hb := mem_range'_bounds hcmem
        exact h c (by omega) (by omega)
      rw [hf]

theorem c2_witness : bestSplitWithJmnedict (str "桃") demoLexicon = none :=
  (c2_null_characterization (str "桃") demoLexicon).mpr
    (Or.inr (Or.inr (Or.inl (by decide))))

/-- C3: on a trimmed all-CJK input of length at most 8 on which both the
2-character-surname cut and the 3-character-surname cut are keepable,
the engine returns the 2-character-surname split, whatever the other
cuts do (score 115 beats 108 and every unbonused cut). -/
theorem c3_prefer_two_char_surname :
    ∀ (s : List Nat) (jm : Lexicon),
      jsTrim s = s → isAllCjk s = true → s.length ≤ 8 →
      keepable s jm 2 → keepable s jm 3 →
      bestSplitWithJmnedict s jm = some (s.take 2, s.drop 2) := by
  intro s jm hfix hcjk hn hk2 hk3
  have hcm : ∀ c ∈ s, isCjkChar c = true := by
    have h := isAllCjk_mem hcjk
    rw [hfix] at h
    exact h
  have hn3 : 3 ≤ s.length := by
    obtain ⟨_, h2, _, _⟩ := hk2
    omega
  have key : ∀ c, 1 ≤ c → c ≤ s.length - 1 → ¬ c = 2 →
      scoreAt s c < scoreAt s 2 := by
    intro c hcl hcu hne
    rw [scoreAt_formula hcm (by omega), scoreAt_formula hcm (by omega)]
    have e1 : (if (2 : Nat) = 2 then 15 else 0) = 15 := rfl
    have e2 : (if (2 : Nat) = 3 then 8 else 0) = 0 := rfl
    rw [e1, e2, if_neg hne]
    rcases eq_or_ne c 3 with rfl | hne3
    · rw [if_pos rfl]
      omega
    · rw [if_neg hne3]
      omega
  apply bestSplit_eq_of_choice s jm 2 hfix hcjk hn hk2
  · intro c hc hkc
    rcases eq_or_ne c 2 with rfl | hne
    · exact le_refl _
    · exact le_of_lt (key c hkc.1 hkc.2.1 hne)
  · intro c hc hkc heq
    by_contra hlt
    push_neg at hlt
    have hne : ¬ c = 2 := by omega
    have := key c hkc.1 hkc.2.1 hne
    omega

theorem c3_witness :
    bestSplitWithJmnedict prefString prefLexicon =
      some (prefString.take 2, prefString.drop 2) :=
  c3_prefer_two_char_surname prefString prefLexicon (by decide) (by decide)
    (by decide) (by decide) (by decide)

/-- C4: on a trimmed all-CJK input of length at most 8, if `c0` is a
keepable cut whose score no keepable cut exceeds and which is the
smallest among the keepable cuts attaining that score, then the scan
returns the split at `c0`: ties go to the first (smallest) cut, and the
running best is displaced only by a strictly greater score. -/
theorem c4_first_max_wins :
    ∀ (s : List Nat) (jm : Lexicon) (c0 : Nat),
      jsTrim s = s → isAllCjk s = true → s.length ≤ 8 →
      keepable s jm c0 →
      (∀ c, c < s.length → keepable s jm c → scoreAt s c ≤ scoreAt s c0) →
      (∀ c, c < s.length → keepable s jm c → scoreAt s c = scoreAt s c0 →
        c0 ≤ c) →
      bestSplitWithJmnedict s jm = some (s.take c0, s.drop c0) := by
  intro s jm c0 hfix hcjk hn hk hmax hmin
  exact bestSplit_eq_of_choice s jm c0 hfix hcjk hn hk hmax hmin

theorem c4_witness :
    bestSplitWithJmnedict tieString tieLexicon =
      some (tieString.take 4, tieString.drop 4) :=
  c4_first_max_wins tieString tieLexicon 4 (by decide) (by decide) (by decide)
    (by decide) (by decide) (by decide)

/-- C5: `isAllCjk` accepts a string exactly when its trim is non-empty
and consists of characters in U+3400-U+4DBF, U+4E00-U+9FFF or U+3005;
it rejects every whitespace-only (in particular empty) string and every
string containing an ASCII letter, an ASCII digit, a kana character or
ASCII punctuation. -/
theorem c5_isAllCjk_spec :
    ∀ s : List Nat,
      (isAllCjk s = true ↔
        (¬ jsTrim s = [] ∧ ∀ c ∈ jsTrim s, isCjkChar c = true)) ∧
      ((∀ c ∈ s, isJsWs c = true) → isAllCjk s = false) ∧
      (∀ c ∈ s,
        isAsciiLetter c = true ∨ isAsciiDigit c = true ∨
          isKanaChar c = true ∨ isAsciiPunct c = true →
        isAllCjk s = false) := by
  intro s
  refine ⟨?_, ?_, ?_⟩
  · unfold isAllCjk
    simp [decide_eq_true_eq, List.all_eq_true]
  · intro h
    unfold isAllCjk
    rw [jsTrim_eq_nil_of_all_ws h]
    simp
  · intro c hc hbad
    have hnw : ¬ isJsWs c = true := by
      intro hw
      simp only [isJsWs, decide_eq_true_eq] at hw
      rcases hbad with hb | hb | hb | hb <;>
        (simp only [isAsciiLetter, isAsciiDigit, isKanaChar, isAsciiPunct,
          decide_eq_true_eq] at hb; omega)
    have hnc : ¬ isCjkChar c = true := by
      intro hcjk
      simp only [isCjkChar, decide_eq_true_eq] at hcjk
      rcases hbad with hb | hb | hb | hb <;>
        (simp only [isAsciiLetter, isAsciiDigit, isKanaChar, isAsciiPunct,
          decide_eq_true_eq] at hb; omega)
    have hmem := mem_jsTrim_of_not_ws hc hnw
    cases hb : isAllCjk s with
    | false => rfl
    | true => exact absurd (isAllCjk_mem hb c hmem) hnc

theorem c5_witness :
    isAllCjk (str "A桃") = false ∧ isAllCjk (str "桃桃") = true :=
  ⟨(c5_isAllCjk_spec (str "A桃")).2.2 65 (by decide) (Or.inl (by decide)),
   (c5_isAllCjk_spec (str "桃桃")).1.mpr (by decide)⟩

-- ### Identity lemmas for the normalizer passes

theorem scanRep_eq_of_none (m : List Nat → Option Nat) (rep : List Nat) :
    ∀ (fuel : Nat) (s : List Nat),
      (∀ t, t <:+ s → ¬ t = [] → m t = none) → scanRep m rep fuel s = s := by
  intro fuel
  induction fuel with
  | zero => intro s _; rfl
  | succ fuel ih =>
    intro s h
    match s with
    | [] => rfl
    | c :: cs =>
      have hm := h (c :: cs) (List.suffix_refl _) (by simp)
      show (match m (c :: cs) with
        | some (k + 1) => rep ++ scanRep m rep fuel ((c :: cs).drop (k + 1))
        | _ => c :: scanRep m rep fuel cs) = c :: cs
      rw [hm]
      exact congrArg (List.cons c)
        (ih cs fun t ht hne => h t (ht.trans (List.suffix_cons c cs)) hne)

theorem runRep_id {m : List Nat → Option Nat} {rep t : List Nat}
    (h : ∀ u, u <:+ t → ¬ u = [] → m u = none) : runRep m rep t = t :=
  scanRep_eq_of_none m rep t.length t h

theorem ciEq_60_iff (c : Nat) : ciEq 60 c = true ↔ c = 60 := by
  unfold ciEq asciiLower
  constructor
  · intro h
    simp only [decide_eq_true_eq] at h
    rw [if_neg (by omega)] at h
    by_cases hc : 65 ≤ c ∧ c ≤ 90
    · rw [if_pos hc] at h; omega
    · rw [if_neg hc] at h; omega
  · rintro rfl; rfl

theorem ciStarts_60_false {ps t : List Nat} (h : ¬ (60 : Nat) ∈ t) :
    ciStarts (60 :: ps) t = false := by
  match t with
  | [] => rfl
  | c :: cs =>
    have hc : ¬ c = 60 := by
      intro hce
      subst hce
      exact h (List.mem_cons_self _ _)
    show (ciEq 60 c && ciStarts ps cs) = false
    have he : ciEq 60 c = false := by
      cases hq : ciEq 60 c
      · rfl
      · exact absurd ((ciEq_60_iff c).mp hq) hc
    rw [he]
    rfl

theorem matchSpoilerSpan_none {t : List Nat} (h : ¬ (60 : Nat) ∈ t) :
    matchSpoilerSpan t = none := by
  unfold matchSpoilerSpan
  have hs : str "<span" = 60 :: str "span" := by decide
  rw [hs, ciStarts_60_false h]
  rfl

theorem matchTag_none {t : List Nat} (h : ¬ (60 : Nat) ∈ t) :
    matchTag t = none := by
  match t with
  | [] => rfl
  | c :: cs =>
    have hc : ¬ c = 60 := by
      intro hce
      subst hce
      exact h (List.mem_cons_self _ _)
    simp [matchTag, hc]

theorem matchBr_none {t : List Nat} (h : ¬ (60 : Nat) ∈ t) :
    matchBr t = none := by
  match t with
  | [] => rfl
  | [_] => rfl
  | [_, _] => rfl
  | c1 :: c2 :: c3 :: rest =>
    have hc : ¬ c1 = 60 := by
      intro hce
      subst hce
      exact h (List.mem_cons_self _ _)
    simp [matchBr, hc]

theorem matchPEnd_none {t : List Nat} (h : ¬ (60 : Nat) ∈ t) :
    matchPEnd t = none := by
  match t with
  | [] => rfl
  | [_] => rfl
  | [_, _] => rfl
  | [_, _, _] => rfl
  | c1 :: c2 :: c3 :: c4 :: rest =>
    have hc : ¬ c1 = 60 := by
      intro hce
      subst hce
      exact h (List.mem_cons_self _ _)
    simp [matchPEnd, hc]

theorem matchLit_cons_none {p0 : Nat} {ps t : List Nat} (h : ¬ p0 ∈ t) :
    matchLit (p0 :: ps) t = none := by
  match t with
  | [] => rfl
  | c :: cs =>
    have hc : ¬ p0 = c := by
      intro hce
      subst hce
      exact h (List.mem_cons_self _ _)
    simp [matchLit, List.isPrefixOf, hc]

theorem scanSpoilerWord_id :
    ∀ (fuel : Nat) (prevW : Bool) (s : List Nat),
      containsCI (str "spoiler") s = false → scanSpoilerWord fuel prevW s = s := by
  intro fuel
  induction fuel with
  | zero => intro prevW s _; rfl
  | succ fuel ih =>
    intro prevW s h
    match s with
    | [] => rfl
    | c :: cs =>
      have hsplit : (ciStarts (str "spoiler") (c :: cs) ||
          containsCI (str "spoiler") cs) = false := h
      have h1 : ciStarts (str "spoiler") (c :: cs) = false := by
        cases hq : ciStarts (str "spoiler") (c :: cs)
        · rfl
        · rw [hq] at hsplit; simp at hsplit
      have h2 : containsCI (str "spoiler") cs = false := by
        cases hq : containsCI (str "spoiler") cs
        · rfl
        · rw [hq] at hsplit; simp at hsplit
      show (if ¬ prevW ∧ ciStarts (str "spoiler") (c :: cs) = true ∧
            ¬ isWordChar (((c :: cs).drop 7).headD 0) = true then
          scanSpoilerWord fuel true ((c :: cs).drop 7)
        else c :: scanSpoilerWord fuel (isWordChar c) cs) = c :: cs
      rw [if_neg fun hcond => by rw [h1] at hcond; exact Bool.noConfusion hcond.2.1]
      exact congrArg (List.cons c) (ih (isWordChar c) cs h2)

theorem stripSpoilers_fix {t : List Nat} (h60 : ¬ (60 : Nat) ∈ t)
    (hsp : containsCI (str "spoiler") t = false) : stripSpoilers t = t := by
  have h1 : runRep matchSpoilerSpan (str "[spoiler removed]") t = t :=
    runRep_id fun u hu _ => matchSpoilerSpan_none fun hm => h60 (hu.subset hm)
  simp only [stripSpoilers, h1]
  exact scanSpoilerWord_id t.length false t hsp

theorem htmlToText_fix {t : List Nat} (h60 : ¬ (60 : Nat) ∈ t)
    (h38 : ¬ (38 : Nat) ∈ t) (htr : jsTrim t = t) : htmlToText t = t := by
  have hbr : runRep matchBr [10] t = t :=
    runRep_id fun u hu _ => matchBr_none fun hm => h60 (hu.subset hm)
  have hpe : runRep matchPEnd [10] t = t :=
    runRep_id fun u hu _ => matchPEnd_none fun hm => h60 (hu.subset hm)
  have htag : runRep matchTag [] t = t :=
    runRep_id fun u hu _ => matchTag_none fun hm => h60 (hu.subset hm)
  have hent : ∀ ps rep : List Nat, runRep (matchLit (38 :: ps)) rep t = t :=
    fun ps rep =>
      runRep_id fun u hu _ => matchLit_cons_none fun hm => h38 (hu.subset hm)
  have e1 : str "&nbsp;" = 38 :: str "nbsp;" := by decide
  have e2 : str "&amp;" = 38 :: str "amp;" := by decide
  have e3 : str "&lt;" = 38 :: str "lt;" := by decide
  have e4 : str "&gt;" = 38 :: str "gt;" := by decide
  have e5 : str "&quot;" = 38 :: str "quot;" := by decide
  have e6 : str "&#39;" = 38 :: str "#39;" := by decide
  simp only [htmlToText, hbr, hpe, htag, e1, e2, e3, e4, e5, e6, hent]
  exact htr

theorem jsTrim_normalize (x : List Nat) :
    jsTrim (normalizeDescription x) = normalizeDescription x := by
  simp only [normalizeDescription, htmlToText]
  exact jsTrim_idem _

/-- C9 counterexample: the normalizer is not idempotent — decoding the
entities in "&lt;b&gt;" produces "<b>", which a second run strips to
the empty string. -/
theorem c9_counterexample :
    ¬ normalizeDescription (normalizeDescription (str "&lt;b&gt;")) =
        normalizeDescription (str "&lt;b&gt;") := by decide

/-- C9 (amended): the normalizer is idempotent on every input whose
normalized output contains no `<` and no `&` character and no
case-insensitive occurrence of "spoiler"; in general entity decoding can
surface new markup (or a new spoiler word) that a second pass consumes. -/
theorem c9_conditional_idempotence :
    ∀ x : List Nat,
      ¬ (60 : Nat) ∈ normalizeDescription x →
      ¬ (38 : Nat) ∈ normalizeDescription x →
      containsCI (str "spoiler") (normalizeDescription x) = false →
      normalizeDescription (normalizeDescription x) = normalizeDescription x := by
  intro x h60 h38 hsp
  have htr := jsTrim_normalize x
  show htmlToText (stripSpoilers (normalizeDescription x)) = normalizeDescription x
  rw [stripSpoilers_fix h60 hsp]
  exact htmlToText_fix h60 h38 htr

theorem c9_witness :
    normalizeDescription (normalizeDescription (str "a<i>b")) =
      normalizeDescription (str "a<i>b") :=
  c9_conditional_idempotence (str "a<i>b") (by decide) (by decide) (by decide)
